import Mathlib

/-!
Verification development for the harmony-machine generative audio engine
(`src/main.rs`).  The decision engine (rational intervals, harmony/novelty
judges, memory decay/reinforcement, and the hill-climbing chord stepper) is
embedded shallowly: Rust `u64` becomes `Nat` (the claims under study never
exercise wrap-around), Rust `f64` becomes `ℝ` with exact arithmetic, and the
`HashMap<Frac, f64>` memory becomes an association list.  Real-number sums
commute, so the unspecified hash-map iteration order is irrelevant to every
score.
-/

/-- Embedding of `struct Frac(u64, u64)`: `a` is the numerator field `.0`,
`b` the denominator field `.1`.  Equality and hashing in the source are
structural (derived), so plain structural equality is used here. -/
structure Frac where
  a : Nat
  b : Nat
deriving DecidableEq

/-- Embedding of `type Memory = HashMap<Frac, f64>` as an association list:
the entries of the map in iteration order. -/
abbrev Memory := List (Frac × ℝ)

/-- Embedding of the nested `fn gcd(x, y)` inside `simplify`:
`if y == 0 { x } else { gcd(y, x % y) }`. -/
def rustGcd (x y : Nat) : Nat :=
  if h : y = 0 then x else rustGcd y (x % y)
termination_by y
decreasing_by
  exact Nat.mod_lt x (Nat.pos_of_ne_zero h)

theorem rustGcd_eq_gcd (x y : Nat) : rustGcd x y = Nat.gcd x y := by
  induction x, y using rustGcd.induct with
  | case1 x =>
    rw [rustGcd]
    simp
  | case2 x y h ih =>
    rw [rustGcd, dif_neg h, ih, Nat.gcd_comm x y, Nat.gcd_rec y x, Nat.gcd_comm]

/-- Embedding of `fn simplify(Frac(a, b)) -> Frac`:
`let d = gcd(a, b); Frac(a/d, b/d)`.  `Nat` division is total where the Rust
`u64` division would panic only for the input `Frac(0, 0)` (there `d = 0`);
no claim touches that single input. -/
def simplify (f : Frac) : Frac :=
  let d := rustGcd f.a f.b
  ⟨f.a / d, f.b / d⟩

/-- Lookup in the association-list memory, mirroring `HashMap::get`. -/
def memGet : Memory → Frac → Option ℝ
  | [], _ => none
  | e :: rest, k => if e.1 = k then some e.2 else memGet rest k

/-- Insertion in the association-list memory, mirroring `HashMap::insert`
(replace the value at an existing key, otherwise add the entry). -/
def memInsert : Memory → Frac → ℝ → Memory
  | [], k, v => [(k, v)]
  | e :: rest, k, v => if e.1 = k then (k, v) :: rest else e :: memInsert rest k v

noncomputable section

/-- One addend of the harmony sum in `fn judge_harmony`: for chord note
`Frac(a1, b1)` and memory entry `(Frac(a2, b2), familiarity)`, this is
`familiarity * a3 * b3` where `Frac(a3, b3) = simplify(Frac(a1*b2, a2*b1))`. -/
def hTerm (n : Frac) (e : Frac × ℝ) : ℝ :=
  let f := simplify ⟨n.a * e.1.b, e.1.a * n.b⟩
  e.2 * (f.a : ℝ) * (f.b : ℝ)

/-- Embedding of `fn judge_harmony(noteset, memory) -> f64`.  The doubly
nested accumulation loop becomes a nested list sum; `iterations` is
`noteset.len() * memory.len()` and the final expression is
`(1 - 1/(avg/5).exp()).max(0).min(1)`.  For empty `noteset` or `memory`
the Rust average is `0.0/0.0 = NaN` and `NaN.max(0.0).min(1.0) = 0.0`
(Rust `f64::max` returns the non-NaN operand); real division by zero gives
`avg = 0` and hence the same final value `0`. -/
def judge_harmony (noteset : List Frac) (memory : Memory) : ℝ :=
  let harmony_sum := (noteset.map (fun n => (memory.map (hTerm n)).sum)).sum
  let iterations : Nat := noteset.length * memory.length
  let avg_harmony := harmony_sum / (iterations : ℝ)
  min (max (1 - 1 / Real.exp (avg_harmony / 5)) 0) 1

/-- The value computed by `fn judge_novelty` after its emptiness check:
average the looked-up familiarities (`unwrap_or(0)`), take the absolute
disparity from the target `0.1`, and clamp `1 - 1/disparity.exp()`. -/
def noveltyVal (noteset : List Frac) (memory : Memory) : ℝ :=
  let familiarity_sum := (noteset.map (fun note => ((memGet memory note).getD 0))).sum
  let avg_familiarity := familiarity_sum / (noteset.length : ℝ)
  let target_familiarity : ℝ := 0.1
  let disparity := |target_familiarity - avg_familiarity|
  min (max (1 - 1 / Real.exp disparity) 0) 1

/-- Embedding of `fn judge_novelty(noteset, memory) -> f64`.  The source
panics (`need at least 1 note`) when `noteset.len() < 1`; the panic is
modelled as `none`. -/
def judge_novelty (noteset : List Frac) (memory : Memory) : Option ℝ :=
  if noteset.length < 1 then none else some (noveltyVal noteset memory)

/-- The total combined judge `(judge_harmony + judge_novelty) / 2`, valid
whenever `judge_novelty` does not panic (see `judge_eq_judgeT`). -/
def judgeT (noteset : List Frac) (memory : Memory) : ℝ :=
  (judge_harmony noteset memory + noveltyVal noteset memory) / 2

/-- Embedding of `fn judge(noteset, memory) -> f64`, propagating the
`judge_novelty` panic as `none`. -/
def judge (noteset : List Frac) (memory : Memory) : Option ℝ :=
  (judge_novelty noteset memory).map (fun nov => (judge_harmony noteset memory + nov) / 2)

/-- Embedding of `fn forget(memory)`: every stored value is multiplied in
place by `0.75`. -/
def forget (memory : Memory) : Memory :=
  memory.map (fun e => (e.1, e.2 * 0.75))

/-- Embedding of `fn remember(note_set, memory)`: iterate over the chord in
order; for each note insert `old + 0.1` (or `0.1` for an unseen note). -/
def remember (note_set : List Frac) (memory : Memory) : Memory :=
  note_set.foldl
    (fun mem note =>
      memInsert mem note
        (match memGet mem note with
         | some v => v + 0.1
         | none => 0.1))
    memory

end

/-- The trial chord built at lines 96–100 of the source:
`note_set[0..i]` followed by `note_set[i+1..len]` followed by the candidate.
The candidate ends up as the last element, not at position `i`. -/
def trial (note_set : List Frac) (i : Nat) (c : Frac) : List Frac :=
  note_set.take i ++ note_set.drop (i + 1) ++ [c]

/-- Modelled from the spec: "a trial chord equal to the original chord with
position i replaced by this candidate, preserving the relative order of all
other positions" — i.e. a positional overwrite.  Stated only to be compared
against `trial`, the construction the source actually performs. -/
def specTrialChord (note_set : List Frac) (i : Nat) (c : Frac) : List Frac :=
  note_set.set i c

/-- The `(i, a, b)` loop triples of `fn step_notes` in iteration order:
position-major, then numerator `a` in `1..12`, then denominator `b` in
`1..12`. -/
def candTriples (len : Nat) : List (Nat × Nat × Nat) :=
  (List.range len).flatMap fun i =>
    (List.range' 1 11).flatMap fun a =>
      (List.range' 1 11).map fun b => (i, a, b)

noncomputable section

/-- The body of the triple-nested loop of `fn step_notes`, acting on the
accumulator `(best, best_score)`: skip a candidate already contained in the
chord, otherwise score the trial chord and adopt it when strictly better.
`judgeT` is the panic-free reading of `judge`, valid here because every
trial chord is non-empty whenever the loop runs (see `judge_eq_judgeT`). -/
def stepFold (note_set : List Frac) (memory : Memory)
    (acc : List Frac × ℝ) (t : Nat × Nat × Nat) : List Frac × ℝ :=
  let possibility := simplify ⟨t.2.1, t.2.2⟩
  if possibility ∈ note_set then acc
  else
    let note_set2 := trial note_set t.1 possibility
    let score := judgeT note_set2 memory
    if score < acc.2 then (note_set2, score) else acc

/-- Embedding of `fn step_notes(note_set, memory) -> Vec<Frac>`:
fold the loop body over all loop triples starting from
`best = note_set, best_score = 1.0`, and return the final `best`. -/
def step_notes (note_set : List Frac) (memory : Memory) : List Frac :=
  ((candTriples note_set.length).foldl (stepFold note_set memory) (note_set, 1)).1

/-- The list of trial chords actually scored by `fn step_notes`: one for
every loop triple whose candidate is not already in the chord. -/
def validTrials (note_set : List Frac) : List (List Frac) :=
  (candTriples note_set.length).filterMap fun t =>
    let p := simplify ⟨t.2.1, t.2.2⟩
    if p ∈ note_set then none else some (trial note_set t.1 p)

end

theorem judge_eq_judgeT (ns : List Frac) (m : Memory) (h : ns ≠ []) :
    judge ns m = some (judgeT ns m) := by
  have hlen : ¬ ns.length < 1 := by
    cases ns with
    | nil => exact absurd rfl h
    | cons x xs => simp
  simp [judge, judge_novelty, judgeT, hlen]

theorem clamp_unit (e : ℝ) : 0 ≤ min (max e 0) 1 ∧ min (max e 0) 1 ≤ 1 :=
  ⟨le_min (le_max_right e 0) zero_le_one, min_le_right _ _⟩

theorem judge_harmony_nil_mem (ns : List Frac) : judge_harmony ns [] = 0 := by
  simp [judge_harmony, Real.exp_zero]

theorem noveltyVal_nil_mem (ns : List Frac) :
    noveltyVal ns [] = 1 - 1 / Real.exp 0.1 := by
  have h0 : (1 : ℝ) ≤ Real.exp 0.1 := Real.one_le_exp (by norm_num)
  have h1 : 1 / Real.exp 0.1 ≤ 1 := by
    rw [div_le_one (lt_of_lt_of_le one_pos h0)]
    exact h0
  have h2 : 0 < 1 / Real.exp 0.1 := by positivity
  simp only [noveltyVal, memGet, Option.getD_none]
  rw [List.map_const']
  simp only [List.sum_replicate, smul_zero, zero_div, sub_zero]
  rw [show |(0.1 : ℝ)| = 0.1 by norm_num]
  rw [max_eq_left (by linarith), min_eq_left (by linarith)]

theorem judgeT_nil_mem (ns : List Frac) :
    judgeT ns [] = (1 - 1 / Real.exp 0.1) / 2 := by
  rw [judgeT, judge_harmony_nil_mem, noveltyVal_nil_mem, zero_add]

theorem judgeT_nil_mem_lt_one (ns : List Frac) : judgeT ns [] < 1 := by
  rw [judgeT_nil_mem]
  have h2 : 0 < 1 / Real.exp 0.1 := by positivity
  linarith

theorem memGet_memInsert_self (m : Memory) (k : Frac) (v : ℝ) :
    memGet (memInsert m k v) k = some v := by
  induction m with
  | nil => simp [memInsert, memGet]
  | cons e rest ih =>
    by_cases h : e.1 = k
    · simp [memInsert, h, memGet]
    · simp [memInsert, h, memGet, ih]

theorem simplify_one_one : simplify ⟨1, 1⟩ = ⟨1, 1⟩ := by
  simp [simplify, rustGcd_eq_gcd]

theorem simplify_one_two : simplify ⟨1, 2⟩ = ⟨1, 2⟩ := by
  simp [simplify, rustGcd_eq_gcd]

theorem trial_eq_eraseIdx (ns : List Frac) (i : Nat) (c : Frac) :
    trial ns i c = ns.eraseIdx i ++ [c] := by
  rw [trial, List.eraseIdx_eq_take_drop_succ, List.append_assoc]

theorem trial_length (ns : List Frac) (i : Nat) (c : Frac) (h : i < ns.length) :
    (trial ns i c).length = ns.length := by
  simp [trial]
  omega

theorem trial_nodup (ns : List Frac) (i : Nat) (c : Frac)
    (hnd : ns.Nodup) (hc : c ∉ ns) : (trial ns i c).Nodup := by
  rw [trial_eq_eraseIdx]
  refine List.nodup_append.2 ⟨hnd.sublist (List.eraseIdx_sublist ns i), List.nodup_singleton c, ?_⟩
  intro x hx hx1
  rcases List.mem_singleton.1 hx1 with rfl
  exact hc ((List.eraseIdx_sublist ns i).mem hx)

theorem candTriples_fst_lt (len : Nat) (t : Nat × Nat × Nat)
    (ht : t ∈ candTriples len) : t.1 < len := by
  simp only [candTriples, List.mem_flatMap, List.mem_map, List.mem_range] at ht
  obtain ⟨i, hi, a, _, b, _, rfl⟩ := ht
  exact hi

theorem foldl_stepFold_stall (ns : List Frac) (m : Memory) (ts : List (Nat × Nat × Nat))
    (best : List Frac) (s : ℝ)
    (h : ∀ t ∈ ts, simplify ⟨t.2.1, t.2.2⟩ ∈ ns ∨
        ¬ judgeT (trial ns t.1 (simplify ⟨t.2.1, t.2.2⟩)) m < s) :
    ts.foldl (stepFold ns m) (best, s) = (best, s) := by
  induction ts with
  | nil => rfl
  | cons t ts ih =>
    have hstep : stepFold ns m (best, s) t = (best, s) := by
      unfold stepFold
      by_cases hm : simplify ⟨t.2.1, t.2.2⟩ ∈ ns
      · simp [hm]
      · have hns := (h t (List.mem_cons_self t ts)).resolve_left hm
        simp [hm, hns]
    rw [List.foldl_cons, hstep]
    exact ih (fun t ht => h t (List.mem_cons_of_mem _ ht))

theorem foldl_stepFold_length_nodup (ns : List Frac) (m : Memory)
    (ts : List (Nat × Nat × Nat)) (acc : List Frac × ℝ)
    (hts : ∀ t ∈ ts, t.1 < ns.length)
    (hlen : acc.1.length = ns.length) (hnd : ns.Nodup → acc.1.Nodup) :
    (ts.foldl (stepFold ns m) acc).1.length = ns.length ∧
      (ns.Nodup → (ts.foldl (stepFold ns m) acc).1.Nodup) := by
  induction ts generalizing acc with
  | nil => exact ⟨hlen, hnd⟩
  | cons t ts ih =>
    rw [List.foldl_cons]
    have ht1 : t.1 < ns.length := hts t (List.mem_cons_self t ts)
    have hts2 : ∀ t2 ∈ ts, t2.1 < ns.length := fun t2 ht2 => hts t2 (List.mem_cons_of_mem _ ht2)
    set p := simplify ⟨t.2.1, t.2.2⟩ with hp
    by_cases hm : p ∈ ns
    · have : stepFold ns m acc t = acc := by
        unfold stepFold
        simp [← hp, hm]
      rw [this]
      exact ih acc hts2 hlen hnd
    · by_cases hlt : judgeT (trial ns t.1 p) m < acc.2
      · have : stepFold ns m acc t = (trial ns t.1 p, judgeT (trial ns t.1 p) m) := by
          unfold stepFold
          simp [← hp, hm, hlt]
        rw [this]
        exact ih _ hts2 (trial_length ns t.1 p ht1) (fun h => trial_nodup ns t.1 p h hm)
      · have : stepFold ns m acc t = acc := by
          unfold stepFold
          simp [← hp, hm, hlt]
        rw [this]
        exact ih acc hts2 hlen hnd

theorem step_notes_eval_aux (ns : List Frac)
    (h1 : (⟨1, 1⟩ : Frac) ∈ ns) (h2 : (⟨1, 2⟩ : Frac) ∉ ns)
    (hct : candTriples ns.length
      = (0, 1, 1) :: (0, 1, 2) :: ((candTriples ns.length).drop 2)) :
    step_notes ns [] = trial ns 0 ⟨1, 2⟩ := by
  unfold step_notes
  rw [hct, List.foldl_cons, List.foldl_cons]
  have e1 : stepFold ns [] (ns, 1) (0, 1, 1) = (ns, 1) := by
    unfold stepFold
    simp [simplify_one_one, h1]
  have hlt : judgeT (trial ns 0 ⟨1, 2⟩) [] < 1 := judgeT_nil_mem_lt_one _
  have e2 : stepFold ns [] (ns, 1) (0, 1, 2)
      = (trial ns 0 ⟨1, 2⟩, judgeT (trial ns 0 ⟨1, 2⟩) []) := by
    unfold stepFold
    simp [simplify_one_two, h2, hlt]
  rw [e1, e2, foldl_stepFold_stall]
  intro t _
  right
  rw [judgeT_nil_mem, judgeT_nil_mem]
  exact lt_irrefl _

/-- Claim C1, counterexample: on the chord `[1/1]` with empty memory, every
trial chord scores exactly the same combined score as the original chord
(so no substitution improves over the original), yet `step_notes` replaces
the chord: `best_score` starts at `1.0`, so the first non-skipped trial is
adopted even though it does not beat the original chord's own score. -/
theorem step_notes_replaces_without_improvement :
    step_notes [⟨1, 1⟩] [] ≠ [⟨1, 1⟩] ∧
      judgeT (step_notes [⟨1, 1⟩] []) [] = judgeT [⟨1, 1⟩] [] := by
  have h : step_notes [⟨1, 1⟩] [] = [⟨1, 2⟩] := by
    have h0 := step_notes_eval_aux [⟨1, 1⟩] (by decide) (by decide) (by rfl)
    rw [h0]
    rfl
  constructor
  · rw [h]
    decide
  · rw [h, judgeT_nil_mem, judgeT_nil_mem]

/-- Claim C1, amended: `step_notes` returns the original chord unchanged
when no candidate trial chord scores strictly below `1.0` (the initial
`best_score`); in general it adopts the best trial scoring below `1.0`,
which need not beat the original chord's own score. -/
theorem step_notes_unchanged_of_no_trial_below_one (ns : List Frac) (m : Memory)
    (h : ∀ t ∈ validTrials ns, ¬ judgeT t m < 1) :
    step_notes ns m = ns := by
  unfold step_notes
  rw [foldl_stepFold_stall]
  intro t ht
  by_cases hm : simplify ⟨t.2.1, t.2.2⟩ ∈ ns
  · exact Or.inl hm
  · refine Or.inr (h _ (List.mem_filterMap.2 ⟨t, ht, ?_⟩))
    simp only [validTrials]
    rw [if_neg hm]

/-- Witness for the amended claim C1 at the empty chord, the only kind of
input with no valid trials at all. -/
theorem step_notes_unchanged_witness : step_notes [] [] = [] :=
  step_notes_unchanged_of_no_trial_below_one [] []
    (by intro t ht; simp [validTrials, candTriples] at ht)

/-- Claim C2, counterexample: the trial chord built by `step_notes` for
position 0 of `[2/1, 1/1]` with candidate `1/2` is `[1/1, 1/2]` — the
candidate is appended at the end — and not the positional overwrite
`[1/2, 1/1]` described by the spec; the second conjunct shows the very
chord returned by the search is such a trial. -/
theorem trial_chord_not_positional :
    trial [⟨2, 1⟩, ⟨1, 1⟩] 0 ⟨1, 2⟩ ≠ specTrialChord [⟨2, 1⟩, ⟨1, 1⟩] 0 ⟨1, 2⟩ ∧
      step_notes [⟨2, 1⟩, ⟨1, 1⟩] [] = trial [⟨2, 1⟩, ⟨1, 1⟩] 0 ⟨1, 2⟩ := by
  constructor
  · decide
  · exact step_notes_eval_aux [⟨2, 1⟩, ⟨1, 1⟩] (by decide) (by decide) (by rfl)

/-- Claim C2, amended: the trial chord scored during search equals the
original chord with position `i` removed and the candidate appended as the
final element; the relative order of the remaining positions is preserved
and the length is unchanged, but the candidate occupies the last position,
not position `i`. -/
theorem trial_removes_then_appends (ns : List Frac) (i : Nat) (c : Frac)
    (h : i < ns.length) :
    trial ns i c = ns.eraseIdx i ++ [c] ∧ (trial ns i c).length = ns.length :=
  ⟨trial_eq_eraseIdx ns i c, trial_length ns i c h⟩

/-- Witness for the amended claim C2 at a concrete chord and position. -/
theorem trial_removes_then_appends_witness :
    trial [⟨2, 1⟩, ⟨1, 1⟩] 0 ⟨1, 2⟩
        = ([⟨2, 1⟩, ⟨1, 1⟩] : List Frac).eraseIdx 0 ++ [⟨1, 2⟩] ∧
      (trial [⟨2, 1⟩, ⟨1, 1⟩] 0 ⟨1, 2⟩).length = ([⟨2, 1⟩, ⟨1, 1⟩] : List Frac).length :=
  trial_removes_then_appends [⟨2, 1⟩, ⟨1, 1⟩] 0 ⟨1, 2⟩ (by decide)

/-- Claim C3, counterexample: `simplify` does not reject a zero denominator;
on `Frac(2, 0)` it happily returns the `Frac` value `Frac(1, 0)` (since
`gcd(2, 0) = 2`), with no error of any kind. -/
theorem simplify_den_zero_returns_value : simplify ⟨2, 0⟩ = ⟨1, 0⟩ := by
  norm_num [simplify, rustGcd_eq_gcd]

/-- Claim C3, amended: canonicalizing an interval `(a, 0)` with `a > 0` does
not fail fast: there is no guard, and `simplify` returns the corrupted value
`Frac(1, 0)` (only the input `Frac(0, 0)` would hit an unguarded division by
zero). -/
theorem simplify_den_zero (a : Nat) (ha : 0 < a) : simplify ⟨a, 0⟩ = ⟨1, 0⟩ := by
  simp [simplify, rustGcd_eq_gcd, Nat.div_self ha]

/-- Witness for the amended claim C3. -/
theorem simplify_den_zero_witness : simplify ⟨3, 0⟩ = ⟨1, 0⟩ :=
  simplify_den_zero 3 (by norm_num)

/-- Claim C4: with an empty memory store `judge_harmony` returns exactly `0`
for every chord (in the source the `0.0/0.0 = NaN` average is absorbed by
`.max(0.0)`, which returns the non-NaN operand, so no NaN is propagated);
proved here for all chords, hence in particular for non-empty ones. -/
theorem judge_harmony_empty_memory (ns : List Frac) : judge_harmony ns [] = 0 :=
  judge_harmony_nil_mem ns

/-- Claim C5, counterexample: on the chord `[2/1, 1/1, 1/1]` (which already
contains a repeated interval) with empty memory, `step_notes` returns
`[1/1, 1/1, 1/2]`, which still contains a repeated interval. -/
theorem step_notes_duplicate_counterexample :
    step_notes [⟨2, 1⟩, ⟨1, 1⟩, ⟨1, 1⟩] [] = [⟨1, 1⟩, ⟨1, 1⟩, ⟨1, 2⟩] ∧
      ¬ (step_notes [⟨2, 1⟩, ⟨1, 1⟩, ⟨1, 1⟩] []).Nodup := by
  have h := step_notes_eval_aux [⟨2, 1⟩, ⟨1, 1⟩, ⟨1, 1⟩] (by decide) (by decide) (by rfl)
  rw [h]
  exact ⟨by rfl, by decide⟩

/-- Claim C5, amended: `step_notes` always preserves the chord's length, and
it returns a chord with no repeated intervals provided the input chord has
no repeated intervals (a duplicate already present in the input can survive
into the result). -/
theorem step_notes_length_and_nodup (ns : List Frac) (m : Memory) :
    (step_notes ns m).length = ns.length ∧
      (ns.Nodup → (step_notes ns m).Nodup) := by
  unfold step_notes
  exact foldl_stepFold_length_nodup ns m _ (ns, 1)
    (candTriples_fst_lt ns.length) rfl (fun h => h)

/-- Witness for the amended claim C5 on a concrete duplicate-free chord. -/
theorem step_notes_length_and_nodup_witness :
    (step_notes [⟨1, 1⟩] []).length = 1 ∧ (step_notes [⟨1, 1⟩] []).Nodup :=
  ⟨(step_notes_length_and_nodup [⟨1, 1⟩] []).1,
   (step_notes_length_and_nodup [⟨1, 1⟩] []).2 (by decide)⟩

/-- Claim C6: for every chord and memory, `judge_harmony` lies in `[0, 1]`,
and whenever `judge_novelty` is defined (the chord is non-empty) its value
lies in `[0, 1]`. -/
theorem judge_scores_unit_interval (ns : List Frac) (m : Memory) :
    (0 ≤ judge_harmony ns m ∧ judge_harmony ns m ≤ 1) ∧
      ∀ x, judge_novelty ns m = some x → 0 ≤ x ∧ x ≤ 1 := by
  constructor
  · simp only [judge_harmony]
    exact clamp_unit _
  · intro x hx
    by_cases h : ns.length < 1
    · simp [judge_novelty, h] at hx
    · simp only [judge_novelty, h, if_false, Option.some.injEq] at hx
      rw [← hx]
      simp only [noveltyVal]
      exact clamp_unit _

/-- Witness for claim C6 at a concrete chord and memory. -/
theorem judge_scores_unit_interval_witness :
    (0 ≤ judge_harmony [⟨1, 1⟩] [] ∧ judge_harmony [⟨1, 1⟩] [] ≤ 1) ∧
      (0 ≤ noveltyVal [⟨1, 1⟩] [] ∧ noveltyVal [⟨1, 1⟩] [] ≤ 1) :=
  ⟨(judge_scores_unit_interval [⟨1, 1⟩] []).1,
   (judge_scores_unit_interval [⟨1, 1⟩] []).2 (noveltyVal [⟨1, 1⟩] [])
     (by simp [judge_novelty])⟩

/-- Claim C7: `judge_novelty` fails (the source panic, modelled as `none`)
exactly when the chord is empty; for a non-empty chord it always returns a
value. -/
theorem judge_novelty_none_iff_empty (ns : List Frac) (m : Memory) :
    judge_novelty ns m = none ↔ ns = [] := by
  cases ns <;> simp [judge_novelty]

/-- Claim C8: decay (`forget`) keeps exactly the stored intervals (the entry
keys, in order, are unchanged) and maps every stored score to `0.75` times
its previous value. -/
theorem forget_decays_and_keeps_entries (m : Memory) (k : Frac) :
    (forget m).map Prod.fst = m.map Prod.fst ∧
      memGet (forget m) k = (memGet m k).map (fun v => 0.75 * v) := by
  constructor
  · simp [forget]
  · induction m with
    | nil => simp [forget, memGet]
    | cons e rest ih =>
      by_cases h : e.1 = k
      · simp [forget, memGet, h, mul_comm]
      · simpa [forget, memGet, h] using ih

/-- Claim C9: reinforcing with a chord containing the same interval twice
applies the `0.1` increment once per occurrence, for a total increase of
`0.2` over the previous familiarity (`0` for an unseen interval, for which
a fresh entry is inserted). -/
theorem remember_double_note (m : Memory) (c : Frac) :
    memGet (remember [c, c] m) c = some ((memGet m c).getD 0 + 0.2) := by
  cases hm : memGet m c with
  | none =>
    simp only [remember, List.foldl_cons, List.foldl_nil, hm,
      memGet_memInsert_self, Option.getD_none]
    norm_num
  | some v =>
    simp only [remember, List.foldl_cons, List.foldl_nil, hm,
      memGet_memInsert_self, Option.getD_some]
    norm_num
    ring

/-- Claim C10: canonicalization is idempotent on already-canonical intervals
(`gcd a b = 1`), and canonicalizing `(a·k, b·k)` for strictly positive
`a`, `b` and positive `k` gives the same result as canonicalizing `(a, b)`. -/
theorem simplify_idem_scale (a b k : Nat) (ha : 0 < a) (hb : 0 < b) (hk : 0 < k) :
    (Nat.gcd a b = 1 → simplify ⟨a, b⟩ = ⟨a, b⟩) ∧
      simplify ⟨a * k, b * k⟩ = simplify ⟨a, b⟩ := by
  constructor
  · intro h
    simp [simplify, rustGcd_eq_gcd, h]
  · simp only [simplify, rustGcd_eq_gcd]
    rw [Nat.gcd_mul_right]
    rw [Nat.mul_div_mul_right a (Nat.gcd a b) hk, Nat.mul_div_mul_right b (Nat.gcd a b) hk]

/-- Witness for claim C10 at `a = 2`, `b = 3`, `k = 5`. -/
theorem simplify_idem_scale_witness :
    simplify ⟨2, 3⟩ = ⟨2, 3⟩ ∧ simplify ⟨2 * 5, 3 * 5⟩ = simplify ⟨2, 3⟩ :=
  ⟨(simplify_idem_scale 2 3 5 (by norm_num) (by norm_num) (by norm_num)).1 (by norm_num),
   (simplify_idem_scale 2 3 5 (by norm_num) (by norm_num) (by norm_num)).2⟩
